import Mathlib

/-!
Verification of the event-scheduler core (package `eventscheduler`):
the `enabledEvent` / `enabledEventsList` / `runningEventsStatus` data
structures and the catalog-facing operations
`newEnabledEventFromEventDetails` and `updateEventAfterExecution`.

Time values (`time.Time`, `time.Duration`) are modelled as integer
nanosecond counts. Go maps `map[string]bool` are modelled as partial
functions `String → Option Bool`. Calls into the persistent catalog
(`edb.UpdateEvent`, `edb.DropEvent`) are modelled as an emitted list of
`CatalogOp` values (the calls themselves are assumed to succeed); the
external schedule computation `EventDetails.GetNextExecutionTime` is a
parameter of type `Int → Option (Int × Bool)` (`none` models its error
return), following the collaborator contract of the specification.
-/

/-- Model of `sql.EventDatabase` restricted to the only method the
scheduler data structures call on it, `Name()`. -/
structure EventDatabase where
  Name : String
deriving DecidableEq

/-- Modelled from the spec: the status string of `sql.EventStatus_Enable`
(the `sql.EventStatus` enumeration is not part of the sources here; the
spec lists statuses Enabled / Disabled / Disabled-on-Slave and only
string equality with the Enable / Disable values is ever used). -/
def enableStr : String := "ENABLE"

/-- Modelled from the spec: the status string of `sql.EventStatus_Disable`. -/
def disableStr : String := "DISABLE"

/-- The fields of `sql.EventDetails` read or written by the scheduler core.
`LastExecuted` is a time in nanoseconds. -/
structure EventDetails where
  Name : String
  Definer : String
  Status : String
  HasExecuteAt : Bool
  OnCompletionPreserve : Bool
  LastExecuted : Int
deriving DecidableEq

/-- `enabledEvent`: an entry of the in-memory list of enabled events.
`nextExecutionAt` is a wall-clock time in nanoseconds. -/
structure enabledEvent where
  edb : EventDatabase
  eventDetails : EventDetails
  nextExecutionAt : Int
  username : String
  address : String
deriving DecidableEq

/-- `(e *enabledEvent) name()`: `fmt.Sprintf("%s.%s", e.edb.Name(), e.eventDetails.Name)`. -/
def enabledEvent.name (e : enabledEvent) : String :=
  e.edb.Name ++ "." ++ e.eventDetails.Name

/-- The comparison closure passed to `sort.SliceStable` in
`newEnabledEventsList` and `enabledEventsList.add`:
`list[i].nextExecutionAt.Sub(list[j].nextExecutionAt).Seconds() < 1`.
With times in integer nanoseconds, `Sub` is integer subtraction and
`d.Seconds() < 1` (float64 division by 1e9) holds exactly when
`d < 1000000000` nanoseconds, so the predicate is `a - b < 10^9` ns. -/
def eventLess (a b : enabledEvent) : Bool :=
  a.nextExecutionAt - b.nextExecutionAt < 1000000000

/-- Inner loop of Go's `insertionSort` (from `sort.SliceStable`): the newly
considered element `x` is swapped leftwards while `less(x, previous)`.
`acc` is the already-processed front of the slice in reversed order
(nearest previous element first); the result is also reversed. -/
def insertPrev (x : enabledEvent) : List enabledEvent → List enabledEvent
  | [] => [x]
  | y :: ys => if eventLess x y then y :: insertPrev x ys else x :: y :: ys

/-- Outer loop of Go's `insertionSort`: elements are taken in order and
each one is inserted into the reversed processed front `acc`. -/
def sortLoop : List enabledEvent → List enabledEvent → List enabledEvent
  | acc, [] => acc.reverse
  | acc, x :: xs => sortLoop (insertPrev x acc) xs

/-- `sort.SliceStable` with the `eventLess` closure. For slices of at most
20 elements (every concrete case in this development) Go's stable sort is
exactly one pass of `insertionSort` over the whole slice; for longer
slices it additionally merges sorted blocks, which like any in-place sort
only permutes the elements. -/
def sliceStableSort (l : List enabledEvent) : List enabledEvent :=
  sortLoop [] l

/-- `newEnabledEventsList`: stores the given list and sorts it with
`sort.SliceStable` under the `eventLess` closure (mutex omitted). -/
def newEnabledEventsList (list : List enabledEvent) : List enabledEvent :=
  sliceStableSort list

/-- `(l *enabledEventsList) add(event)`: appends the event and re-sorts the
whole list with `sort.SliceStable` under the `eventLess` closure. -/
def enabledEventsList.add (l : List enabledEvent) (event : enabledEvent) : List enabledEvent :=
  sliceStableSort (l ++ [event])

/-- `(l *enabledEventsList) remove(key)`: removes the first entry whose
`name()` equals `key` and returns; no-op if absent. -/
def enabledEventsList.remove : List enabledEvent → String → List enabledEvent
  | [], _ => []
  | e :: es, key => if e.name = key then es else e :: enabledEventsList.remove es key

/-- `(l *enabledEventsList) pop()`: returns the first element (or nothing)
and the remaining list. -/
def enabledEventsList.pop (l : List enabledEvent) : Option enabledEvent × List enabledEvent :=
  match l with
  | [] => (none, [])
  | x :: xs => (some x, xs)

/-- Backing array after `append(cur[:i], cur[i+1:m]...)` on a slice of
current length `m` over backing array `A`: positions below `i` and from
`m - 1` upward keep their old contents, positions `i .. m-2` receive the
old contents of `i+1 .. m-1`. -/
def shiftLeftAt (A : List enabledEvent) (i m : Nat) : List enabledEvent :=
  A.take i ++ (A.drop (i + 1)).take (m - 1 - i) ++ A.drop (m - 1)

/-- Loop body of `(l *enabledEventsList) removeSchemaEvents(dbName)`:
`for i, e := range l.eventsList { if e.edb.Name() == dbName { l.eventsList =
append(l.eventsList[:i], l.eventsList[i+1:]...) } }`.
The range expression's slice header is copied at loop entry (its length
`n` fixes the iteration count), but the backing array `A` is shared with
the re-assigned slice, so `e` is read from the mutated array. `m` is the
current slice length. `l.eventsList[i+1:]` panics when `i + 1 > m`
(slice bound below the low index); `none` models that run-time panic. -/
def removeSchemaLoop (dbName : String) :
    List enabledEvent → Nat → List Nat → Option (List enabledEvent)
  | A, m, [] => some (A.take m)
  | A, m, i :: rest =>
    match A.get? i with
    | none => none
    | some e =>
      if e.edb.Name = dbName then
        if i + 1 ≤ m then
          removeSchemaLoop dbName (shiftLeftAt A i m) (m - 1) rest
        else none
      else removeSchemaLoop dbName A m rest

/-- `(l *enabledEventsList) removeSchemaEvents(dbName)` (mutex omitted);
`none` models a run-time panic of the loop body. -/
def enabledEventsList.removeSchemaEvents (l : List enabledEvent) (dbName : String) :
    Option (List enabledEvent) :=
  removeSchemaLoop dbName l l.length (List.range l.length)

/-- `runningEventsStatus`: the two Go maps `status` and `reAdd`, each
`map[string]bool`, modelled as partial functions (mutex omitted). -/
structure runningEventsStatus where
  status : String → Option Bool
  reAdd : String → Option Bool

/-- `newRunningEventsStatus()`: both maps empty. -/
def newRunningEventsStatus : runningEventsStatus :=
  { status := fun _ => none, reAdd := fun _ => none }

/-- `(r *runningEventsStatus) update(key, status, reAdd)`:
`r.status[key] = status; r.reAdd[key] = reAdd`. -/
def runningEventsStatus.update (r : runningEventsStatus) (key : String)
    (status reAdd : Bool) : runningEventsStatus :=
  { status := fun k => if k = key then some status else r.status k,
    reAdd := fun k => if k = key then some reAdd else r.reAdd k }

/-- `(r *runningEventsStatus) remove(key)`: `delete(r.status, key)` only;
the `reAdd` map is not touched. -/
def runningEventsStatus.remove (r : runningEventsStatus) (key : String) :
    runningEventsStatus :=
  { r with status := fun k => if k = key then none else r.status k }

/-- `(r *runningEventsStatus) getStatus(key)`: the comma-ok map read
`s, ok := r.status[key]` (missing keys read as the zero value `false`). -/
def runningEventsStatus.getStatus (r : runningEventsStatus) (key : String) : Bool × Bool :=
  ((r.status key).getD false, (r.status key).isSome)

/-- `(r *runningEventsStatus) getReAdd(key)`: the comma-ok map read
`ra, ok := r.reAdd[key]`. -/
def runningEventsStatus.getReAdd (r : runningEventsStatus) (key : String) : Bool × Bool :=
  ((r.reAdd key).getD false, (r.reAdd key).isSome)

/-- `(r *runningEventsStatus) clear()`: the first loop deletes every
`status` key from `status`; the second loop ranges over `reAdd` but its
body is `delete(r.status, k)` — it also deletes from `status`. Net
effect, independent of map iteration order: `status` becomes empty and
`reAdd` is left unchanged. -/
def runningEventsStatus.clear (r : runningEventsStatus) : runningEventsStatus :=
  { status := fun _ => none, reAdd := r.reAdd }

/-- `strings.HasPrefix(s, pre)`. -/
def goHasPrefix (s pre : String) : Bool :=
  pre.data.isPrefixOf s.data

/-- `(r *runningEventsStatus) removeSchemaEvents(dbName)`: for every key of
`status` with the text `dbName + "."` at its start, `r.status[evId]` is
reassigned to itself (no change) and `r.reAdd[evId]` is set to `false`.
Each iteration touches only its own key, so map iteration order is
irrelevant and the net effect is pointwise. -/
def runningEventsStatus.removeSchemaEvents (r : runningEventsStatus) (dbName : String) :
    runningEventsStatus :=
  { status := r.status,
    reAdd := fun evId =>
      if (r.status evId).isSome && goHasPrefix evId (dbName ++ ".") then some false
      else r.reAdd evId }

/-- The backquote character, written by code point to keep it out of the
source text. -/
def bqChar : Char := Char.ofNat 96

/-- The single-quote character, written by code point. -/
def sqChar : Char := Char.ofNat 39

/-- `strings.Split(s, sep)` for a one-character separator, on `List Char`:
`n` separators yield `n + 1` fields. -/
def splitOnChar (c : Char) : List Char → List (List Char)
  | [] => [[]]
  | x :: xs =>
    if x = c then [] :: splitOnChar c xs
    else
      match splitOnChar c xs with
      | [] => [[x]]
      | h :: t => (x :: h) :: t

/-- `strings.TrimPrefix(s, p)` for a one-character `p`: drop a leading `c`
if present. -/
def trimPrefixChar (c : Char) : List Char → List Char
  | [] => []
  | x :: xs => if x = c then xs else x :: xs

/-- `strings.TrimSuffix(s, p)` for a one-character `p`: drop a trailing
`c` if present (implemented through reversal). -/
def trimSuffixChar (c : Char) (l : List Char) : List Char :=
  (trimPrefixChar c l.reverse).reverse

/-- The quote stripping applied to each half of the definer: one
`TrimPrefix`/`TrimSuffix` pass with a backquote, then one with a single
quote (each side trimmed independently, exactly as in the source). -/
def trimQuotes (l : List Char) : List Char :=
  trimSuffixChar sqChar (trimPrefixChar sqChar (trimSuffixChar bqChar (trimPrefixChar bqChar l)))

/-- `getUsernameAndAddressFromDefiner(definer)`: split on every `@`; error
unless exactly two fields result; strip one backquote layer then one
single-quote layer from each field. `none` models the
"invalid definer for the event" error. -/
def getUsernameAndAddressFromDefiner (definer : List Char) :
    Option (List Char × List Char) :=
  match splitOnChar '@' definer with
  | [u, a] => some (trimQuotes u, trimQuotes a)
  | _ => none

/-- A call into the persistent catalog made by the scheduler. -/
inductive CatalogOp where
  | updateEvent (name : String) (details : EventDetails)
  | dropEvent (name : String)
deriving DecidableEq

/-- `newEnabledEventFromEventDetails(ctx, edb, ed, curTime)`. The external
schedule computation `ed.GetNextExecutionTime` is the parameter
`getNextExecutionTime` (`none` = its error return, propagated). The outer
`none` models an error return `(nil, false, err)`; otherwise the result
is the created event (if any) together with the catalog calls made. -/
def newEnabledEventFromEventDetails (edb : EventDatabase) (ed : EventDetails)
    (getNextExecutionTime : Int → Option (Int × Bool)) (curTime : Int) :
    Option (Option enabledEvent × List CatalogOp) :=
  if ed.Status = enableStr then
    match getNextExecutionTime curTime with
    | none => none
    | some (nextExecution, eventEnded) =>
      if !eventEnded then
        match getUsernameAndAddressFromDefiner ed.Definer.data with
        | none => none
        | some (username, address) =>
          some (some { edb := edb, eventDetails := ed, nextExecutionAt := nextExecution,
                       username := username.asString, address := address.asString }, [])
      else
        if ed.OnCompletionPreserve then
          some (none, [CatalogOp.updateEvent ed.Name { ed with Status := disableStr }])
        else
          some (none, [CatalogOp.dropEvent ed.Name])
  else some (none, [])

/-- `(e *enabledEvent) updateEventAfterExecution(ctx, edb, executionTime)`.
`nowTime` stands for the `time.Now()` read inside the function. Returns
the updated event, the `ended` flag and the catalog calls made; the outer
`none` models the error return of `GetNextExecutionTime`. In the
ended-and-not-preserve branch the function drops the event and returns
before `LastExecuted` is written or `UpdateEvent` called. -/
def updateEventAfterExecution (e : enabledEvent)
    (getNextExecutionTime : Int → Option (Int × Bool)) (nowTime executionTime : Int) :
    Option (enabledEvent × Bool × List CatalogOp) :=
  let r : Option (Int × Bool) :=
    if e.eventDetails.HasExecuteAt then some (0, true)
    else getNextExecutionTime nowTime
  match r with
  | none => none
  | some (nextExecutionAt, ended) =>
    if ended then
      if e.eventDetails.OnCompletionPreserve then
        let d := { e.eventDetails with Status := disableStr, LastExecuted := executionTime }
        some ({ e with eventDetails := d }, true, [CatalogOp.updateEvent d.Name d])
      else
        some (e, true, [CatalogOp.dropEvent e.eventDetails.Name])
    else
      let d := { e.eventDetails with LastExecuted := executionTime }
      some ({ e with eventDetails := d, nextExecutionAt := nextExecutionAt }, false,
            [CatalogOp.updateEvent d.Name d])

/-- A concrete enabled event used in the concrete evaluations below. -/
def sampleEvent (db nm : String) (t : Int) : enabledEvent :=
  { edb := { Name := db },
    eventDetails := { Name := nm, Definer := "u@h", Status := enableStr,
                      HasExecuteAt := false, OnCompletionPreserve := false,
                      LastExecuted := 0 },
    nextExecutionAt := t, username := "u", address := "h" }

/-- A concrete one-shot enabled event (HasExecuteAt, not preserved). -/
def oneShotEvent : enabledEvent :=
  { edb := { Name := "db1" },
    eventDetails := { Name := "ev1", Definer := "u@h", Status := enableStr,
                      HasExecuteAt := true, OnCompletionPreserve := false,
                      LastExecuted := 0 },
    nextExecutionAt := 3, username := "u", address := "h" }

/-- A concrete event definition for the catalog-load evaluations. -/
def loadDetails (st : String) (p : Bool) : EventDetails :=
  { Name := "e1", Definer := "u@h", Status := st, HasExecuteAt := false,
    OnCompletionPreserve := p, LastExecuted := 0 }

theorem isPrefixOf_append_self (l t : List Char) : l.isPrefixOf (l ++ t) = true := by
  induction l with
  | nil => simp
  | cons x xs ih => simp [List.isPrefixOf_cons₂, ih]

theorem goHasPrefix_append (p s : String) : goHasPrefix (p ++ s) p = true := by
  unfold goHasPrefix
  rw [String.data_append]
  exact isPrefixOf_append_self _ _

theorem splitOnChar_ne_nil (c : Char) (l : List Char) : splitOnChar c l ≠ [] := by
  cases l with
  | nil => simp [splitOnChar]
  | cons x xs =>
    unfold splitOnChar
    by_cases h : x = c
    · simp [h]
    · simp only [h, if_false]
      cases hs : splitOnChar c xs <;> simp

theorem splitOnChar_length (c : Char) (l : List Char) :
    (splitOnChar c l).length = l.count c + 1 := by
  induction l with
  | nil => simp [splitOnChar]
  | cons x xs ih =>
    unfold splitOnChar
    by_cases h : x = c
    · simp [h, List.count_cons, ih]
    · rcases hs : splitOnChar c xs with _ | ⟨hd, tl⟩
      · exact absurd hs (splitOnChar_ne_nil c xs)
      · rw [hs] at ih
        simp only [List.length_cons] at ih
        simp [h, hs, List.count_cons]
        omega

theorem splitOnChar_not_mem (c : Char) (l : List Char) (h : c ∉ l) :
    splitOnChar c l = [l] := by
  induction l with
  | nil => rfl
  | cons x xs ih =>
    have hx : ¬ x = c := fun hh => h (hh ▸ List.mem_cons_self x xs)
    have hxs : c ∉ xs := fun hh => h (List.mem_cons_of_mem x hh)
    simp [splitOnChar, hx, ih hxs]

theorem splitOnChar_append (c : Char) (a b : List Char) (ha : c ∉ a) :
    splitOnChar c (a ++ c :: b) = a :: splitOnChar c b := by
  induction a with
  | nil => simp [splitOnChar]
  | cons x xs ih =>
    have hx : ¬ x = c := fun hh => ha (hh ▸ List.mem_cons_self x xs)
    have hxs : c ∉ xs := fun hh => ha (List.mem_cons_of_mem x hh)
    have hne := splitOnChar_ne_nil c (xs ++ c :: b)
    rcases hs : splitOnChar c (xs ++ c :: b) with _ | ⟨hd, tl⟩
    · exact absurd hs hne
    · rw [ih hxs] at hs
      cases hs
      simp [splitOnChar, hx, ih hxs]

theorem insertPrev_perm (x : enabledEvent) (acc : List enabledEvent) :
    List.Perm (insertPrev x acc) (x :: acc) := by
  induction acc with
  | nil => simp [insertPrev]
  | cons y ys ih =>
    unfold insertPrev
    by_cases h : eventLess x y
    · simp only [h, if_true]
      exact (ih.cons y).trans (List.Perm.swap x y ys)
    · simp [h]

theorem sortLoop_perm (xs : List enabledEvent) : ∀ acc : List enabledEvent,
    List.Perm (sortLoop acc xs) (acc ++ xs) := by
  induction xs with
  | nil => intro acc; simp [sortLoop]
  | cons x t ih =>
    intro acc
    have h1 := ih (insertPrev x acc)
    have h2 : List.Perm (insertPrev x acc ++ t) ((x :: acc) ++ t) :=
      (insertPrev_perm x acc).append_right t
    have h3 : List.Perm ((x :: acc) ++ t) (acc ++ x :: t) := by
      simpa using List.perm_middle.symm
    exact ((h1.trans h2).trans h3)

theorem sliceStableSort_perm (l : List enabledEvent) :
    List.Perm (sliceStableSort l) l := by
  simpa [sliceStableSort] using sortLoop_perm l []

theorem remove_perm_erase (l : List enabledEvent) (e : enabledEvent)
    (hmem : e ∈ l) (huniq : ∀ y ∈ l, y.name = e.name → y = e) :
    List.Perm (enabledEventsList.remove l e.name) (l.erase e) := by
  induction l with
  | nil => cases hmem
  | cons x t ih =>
    by_cases hx : x.name = e.name
    · have hxe : x = e := huniq x (List.mem_cons_self x t) hx
      subst hxe
      simp [enabledEventsList.remove, List.erase_cons_head]
    · have hxe : ¬ x = e := fun hh => hx (hh ▸ rfl)
      have hmem' : e ∈ t := by
        rcases List.mem_cons.mp hmem with h | h
        · exact absurd h.symm hxe
        · exact h
      have huniq' : ∀ y ∈ t, y.name = e.name → y = e := fun y hy =>
        huniq y (List.mem_cons_of_mem x hy)
      have hp := ih hmem' huniq'
      have herase : (x :: t).erase e = x :: t.erase e := by
        rw [List.erase_cons]
        simp [hxe]
      rw [herase]
      simpa [enabledEventsList.remove, hx] using hp.cons x

/-- C1: the spec (and the code's own comment) say `newEnabledEventsList`
sorts the registry non-decreasingly by `nextExecutionAt` so that the head
is the earliest entry. The sort predicate `(a - b).Seconds() < 1` breaks
this: two events half a second apart, given earliest-first, come out
reversed, so the head is not the earliest entry. -/
theorem C1_ordering_violated_by_sort_predicate :
    (newEnabledEventsList
        [sampleEvent "db" "a" 0, sampleEvent "db" "b" 500000000]).map
      (fun e => e.nextExecutionAt) = [500000000, 0] ∧
    ¬ List.Sorted (· ≤ ·)
      ((newEnabledEventsList
          [sampleEvent "db" "a" 0, sampleEvent "db" "b" 500000000]).map
        (fun e => e.nextExecutionAt)) := by
  constructor
  · decide
  · decide

/-- C2: `runningEventsStatus.removeSchemaEvents db` leaves the `status`
map untouched (no entry is removed and no running flag changes), only
ever writes `false` into `reAdd`, and for every entry of `db` (qualified
name `db ++ "." ++ nm`) present in `status` it sets `reAdd` to `false`. -/
theorem C2_clearDatabase_tombstones_running_entries
    (r : runningEventsStatus) (db nm k : String) :
    (r.removeSchemaEvents db).status k = r.status k ∧
    ((r.removeSchemaEvents db).reAdd k = r.reAdd k ∨
      (r.removeSchemaEvents db).reAdd k = some false) ∧
    (r.removeSchemaEvents db).reAdd (db ++ "." ++ nm) =
      (if (r.status (db ++ "." ++ nm)).isSome then some false
       else r.reAdd (db ++ "." ++ nm)) := by
  refine ⟨rfl, ?_, ?_⟩
  · unfold runningEventsStatus.removeSchemaEvents
    by_cases h : ((r.status k).isSome && goHasPrefix k (db ++ ".")) = true
    · right; simp [h]
    · left; simp [h]
  · have hpre : goHasPrefix (db ++ "." ++ nm) (db ++ ".") = true :=
      goHasPrefix_append (db ++ ".") nm
    simp [runningEventsStatus.removeSchemaEvents, hpre]

/-- C3: the claim says `clear` empties both maps. The second loop of the
code deletes the `reAdd` keys from the `status` map instead, so after
`update(k, true, true)` followed by `clear()`, `getReAdd k` still finds
the key present with value `true`, while the claim says it must be
absent. -/
theorem C3_clear_leaves_reAdd_map_intact :
    ((newRunningEventsStatus.update "db1.e1" true true).clear).getReAdd "db1.e1"
      = (true, true) ∧
    ((newRunningEventsStatus.update "db1.e1" true true).clear).getStatus "db1.e1"
      = (false, false) := by
  constructor
  · decide
  · decide

/-- C4: the claim says `removeSchemaEvents db` deletes every entry of `db`.
The loop mutates the slice while ranging forward, so after deleting `x`
the adjacent entry `y` of the same database is skipped and survives in
the result, while the unrelated `z` is kept as it should be. -/
theorem C4_removeDatabase_skips_adjacent_entry :
    enabledEventsList.removeSchemaEvents
        [sampleEvent "db" "x" 1, sampleEvent "db" "y" 2, sampleEvent "db2" "z" 3]
        "db"
      = some [sampleEvent "db" "y" 2, sampleEvent "db2" "z" 3] ∧
    (sampleEvent "db" "y" 2).edb.Name = "db" := by
  constructor
  · decide
  · decide

/-- C5: definer parsing fails exactly when the string does not contain
exactly one `@`; with exactly one `@` it returns the two halves with one
layer of backquotes and then one layer of single quotes stripped; and the
four concrete round-trip examples of the spec evaluate as stated. -/
theorem C5_definer_parsing :
    (∀ s : List Char,
      getUsernameAndAddressFromDefiner s = none ↔ ¬ s.count '@' = 1) ∧
    (∀ a b : List Char, '@' ∉ a → '@' ∉ b →
      getUsernameAndAddressFromDefiner (a ++ '@' :: b)
        = some (trimQuotes a, trimQuotes b)) ∧
    getUsernameAndAddressFromDefiner "`u`@`h`".data = some ("u".data, "h".data) ∧
    getUsernameAndAddressFromDefiner "'u'@'h'".data = some ("u".data, "h".data) ∧
    getUsernameAndAddressFromDefiner "u@h".data = some ("u".data, "h".data) ∧
    getUsernameAndAddressFromDefiner "u".data = none := by
  refine ⟨?_, ?_, by decide, by decide, by decide, by decide⟩
  · intro s
    have hlen := splitOnChar_length '@' s
    rcases h : splitOnChar '@' s with _ | ⟨u, t⟩
    · exact absurd h (splitOnChar_ne_nil '@' s)
    · rw [h] at hlen
      rcases t with _ | ⟨a, t2⟩
      · simp only [List.length_cons, List.length_nil] at hlen
        simp [getUsernameAndAddressFromDefiner, h]
        omega
      · rcases t2 with _ | ⟨w, t3⟩
        · simp only [List.length_cons, List.length_nil] at hlen
          simp [getUsernameAndAddressFromDefiner, h]
          omega
        · simp only [List.length_cons] at hlen
          simp [getUsernameAndAddressFromDefiner, h]
          omega
  · intro a b ha hb
    simp [getUsernameAndAddressFromDefiner, splitOnChar_append '@' a b ha,
      splitOnChar_not_mem '@' b hb]

/-- C5 witness: the splitting clause applied at the concrete halves
`x` and `y` of `x@y`. -/
theorem C5_witness :
    getUsernameAndAddressFromDefiner ("x".data ++ '@' :: "y".data)
      = some (trimQuotes "x".data, trimQuotes "y".data) := by
  exact C5_definer_parsing.2.1 "x".data "y".data (by decide) (by decide)

/-- C6: for a one-shot event (`HasExecuteAt`), `updateEventAfterExecution`
returns `ended = true`, never consults the schedule again and never
advances `nextExecutionAt`; if `OnCompletionPreserve` it updates the
catalog entry with status `DISABLE` and `LastExecuted = executionTime`,
otherwise it drops the event from the catalog. -/
theorem C6_oneshot_is_ended (e : enabledEvent)
    (g : Int → Option (Int × Bool)) (nowT execT : Int)
    (h : e.eventDetails.HasExecuteAt = true) :
    updateEventAfterExecution e g nowT execT =
      (if e.eventDetails.OnCompletionPreserve then
        some ({ e with eventDetails :=
                  { e.eventDetails with Status := disableStr, LastExecuted := execT } },
              true,
              [CatalogOp.updateEvent e.eventDetails.Name
                { e.eventDetails with Status := disableStr, LastExecuted := execT }])
       else
        some (e, true, [CatalogOp.dropEvent e.eventDetails.Name])) ∧
    (updateEventAfterExecution e g nowT execT).map (fun p => p.1.nextExecutionAt)
      = some e.nextExecutionAt := by
  unfold updateEventAfterExecution
  rw [h]
  by_cases hp : e.eventDetails.OnCompletionPreserve <;> simp [hp]

/-- C6 witness: the theorem applied at the concrete one-shot event with
`OnCompletionPreserve = false`, at execution time 7. -/
theorem C6_witness :
    updateEventAfterExecution oneShotEvent (fun _ => none) 0 7 =
      some (oneShotEvent, true, [CatalogOp.dropEvent "ev1"]) := by
  have h := C6_oneshot_is_ended oneShotEvent (fun _ => none) 0 7 rfl
  simpa using h.1

/-- C7: catalog load of one definition. A definition whose status is not
Enabled yields no event and no catalog call; an Enabled, not-ended
definition yields the constructed event with username and address parsed
from the definer; an Enabled, ended definition is persisted with status
`DISABLE` when `OnCompletionPreserve`, and dropped from the catalog
otherwise. -/
theorem C7_catalog_load (edb : EventDatabase) (ed : EventDetails)
    (g : Int → Option (Int × Bool)) (t : Int) :
    (¬ ed.Status = enableStr →
      newEnabledEventFromEventDetails edb ed g t = some (none, [])) ∧
    (∀ (nx : Int) (u a : List Char), ed.Status = enableStr →
      g t = some (nx, false) →
      getUsernameAndAddressFromDefiner ed.Definer.data = some (u, a) →
      newEnabledEventFromEventDetails edb ed g t =
        some (some { edb := edb, eventDetails := ed, nextExecutionAt := nx,
                     username := u.asString, address := a.asString }, [])) ∧
    (∀ nx : Int, ed.Status = enableStr → g t = some (nx, true) →
      ed.OnCompletionPreserve = true →
      newEnabledEventFromEventDetails edb ed g t =
        some (none, [CatalogOp.updateEvent ed.Name { ed with Status := disableStr }])) ∧
    (∀ nx : Int, ed.Status = enableStr → g t = some (nx, true) →
      ed.OnCompletionPreserve = false →
      newEnabledEventFromEventDetails edb ed g t =
        some (none, [CatalogOp.dropEvent ed.Name])) := by
  refine ⟨?_, ?_, ?_, ?_⟩
  · intro hs
    simp [newEnabledEventFromEventDetails, hs]
  · intro nx u a hs hg hu
    simp [newEnabledEventFromEventDetails, hs, hg, hu]
  · intro nx hs hg hp
    simp [newEnabledEventFromEventDetails, hs, hg, hp]
  · intro nx hs hg hp
    simp [newEnabledEventFromEventDetails, hs, hg, hp]

/-- C7 witness: the four clauses of the load theorem applied at concrete
definitions (disabled; enabled and not ended; enabled, ended and
preserved; enabled, ended and not preserved). -/
theorem C7_witness :
    newEnabledEventFromEventDetails { Name := "db1" } (loadDetails disableStr true)
        (fun _ => some (42, false)) 0 = some (none, []) ∧
    newEnabledEventFromEventDetails { Name := "db1" } (loadDetails enableStr true)
        (fun _ => some (42, false)) 0 =
      some (some { edb := { Name := "db1" }, eventDetails := loadDetails enableStr true,
                   nextExecutionAt := 42, username := "u", address := "h" }, []) ∧
    newEnabledEventFromEventDetails { Name := "db1" } (loadDetails enableStr true)
        (fun _ => some (42, true)) 0 =
      some (none, [CatalogOp.updateEvent "e1"
                    { loadDetails enableStr true with Status := disableStr }]) ∧
    newEnabledEventFromEventDetails { Name := "db1" } (loadDetails enableStr false)
        (fun _ => some (42, true)) 0 =
      some (none, [CatalogOp.dropEvent "e1"]) := by
  refine ⟨?_, ?_, ?_, ?_⟩
  · exact (C7_catalog_load { Name := "db1" } (loadDetails disableStr true)
      (fun _ => some (42, false)) 0).1 (by decide)
  · have h := (C7_catalog_load { Name := "db1" } (loadDetails enableStr true)
      (fun _ => some (42, false)) 0).2.1 42 "u".data "h".data rfl rfl (by decide)
    simpa using h
  · exact (C7_catalog_load { Name := "db1" } (loadDetails enableStr true)
      (fun _ => some (42, true)) 0).2.2.1 42 rfl rfl rfl
  · exact (C7_catalog_load { Name := "db1" } (loadDetails enableStr false)
      (fun _ => some (42, true)) 0).2.2.2 42 rfl rfl rfl

/-- C8 counterexample: a registry of two events half a second apart (in
the order `newEnabledEventsList` itself produces), none named `db.c`;
`add` of a third event re-sorts the whole list with the broken predicate
and reverses the two existing entries, so `add` followed by `remove` of
the new name does not restore the prior contents. -/
theorem C8_counterexample_roundtrip :
    (([sampleEvent "db" "b" 500000000, sampleEvent "db" "a" 0].all
        (fun x => x.name != (sampleEvent "db" "c" 10000000000).name)) = true) ∧
    enabledEventsList.remove
        (enabledEventsList.add
          [sampleEvent "db" "b" 500000000, sampleEvent "db" "a" 0]
          (sampleEvent "db" "c" 10000000000))
        (sampleEvent "db" "c" 10000000000).name
      ≠ [sampleEvent "db" "b" 500000000, sampleEvent "db" "a" 0] := by
  constructor
  · decide
  · decide

/-- C8 (amended): for every registry list `L` containing no entry named
`e.name`, `add e` followed by `remove e.name` returns the registry to its
prior size and the same multiset of entries — a permutation of `L` —
though not necessarily in the prior order, since `add` re-sorts the whole
list. -/
theorem C8_add_remove_roundtrip_perm (L : List enabledEvent) (e : enabledEvent)
    (hname : ∀ x ∈ L, ¬ x.name = e.name) :
    List.Perm (enabledEventsList.remove (enabledEventsList.add L e) e.name) L := by
  have hperm : List.Perm (enabledEventsList.add L e) (L ++ [e]) :=
    sliceStableSort_perm (L ++ [e])
  have hmem : e ∈ enabledEventsList.add L e :=
    hperm.mem_iff.mpr (by simp)
  have huniq : ∀ y ∈ enabledEventsList.add L e, y.name = e.name → y = e := by
    intro y hy hyname
    have hy' : y ∈ L ++ [e] := hperm.mem_iff.mp hy
    rcases List.mem_append.mp hy' with hL | hR
    · exact absurd hyname (hname y hL)
    · simpa using hR
  have h1 := remove_perm_erase (enabledEventsList.add L e) e hmem huniq
  have h2 : List.Perm ((enabledEventsList.add L e).erase e) ((L ++ [e]).erase e) :=
    hperm.erase e
  have h3 : (L ++ [e]).erase e = L := by
    have heL : e ∉ L := fun hm => (hname e hm) rfl
    rw [List.erase_append_right _ heL]
    simp
  rw [h3] at h2
  exact h1.trans h2

/-- C8 witness: the amended round trip applied at a concrete registry of
one event and a concrete added event. -/
theorem C8_witness :
    List.Perm
      (enabledEventsList.remove
        (enabledEventsList.add [sampleEvent "db" "a" 0] (sampleEvent "db" "b" 500000000))
        (sampleEvent "db" "b" 500000000).name)
      [sampleEvent "db" "a" 0] := by
  exact C8_add_remove_roundtrip_perm [sampleEvent "db" "a" 0]
    (sampleEvent "db" "b" 500000000) (by decide)

/-- C9: `remove` deletes only from the `status` map. After
`update key s ra` and `remove key`, the running-status lookup reports the
key absent while `getReAdd` still returns `(ra, true)`. -/
theorem C9_remove_keeps_reAdd (r : runningEventsStatus) (key : String) (s ra : Bool) :
    ((r.update key s ra).remove key).getStatus key = (false, false) ∧
    ((r.update key s ra).remove key).getReAdd key = (ra, true) := by
  constructor
  · simp [runningEventsStatus.update, runningEventsStatus.remove,
      runningEventsStatus.getStatus]
  · simp [runningEventsStatus.update, runningEventsStatus.remove,
      runningEventsStatus.getReAdd]

/-- C10: the RunningSet clears by qualified-name text match
`dbName + "."` while the registry removes by exact database-name
equality. For the distinct databases `db` and `db.sub`, clearing `db`
tombstones (`reAdd = false`) the running event `db.sub.ev` of the other
database while leaving it marked running, yet removing database `db` from
the registry leaves that same event in place. -/
theorem C10_prefix_match_crosses_databases :
    ("db" : String) ≠ "db.sub" ∧
    ((newRunningEventsStatus.update "db.sub.ev" true true).removeSchemaEvents
        "db").getReAdd "db.sub.ev" = (false, true) ∧
    ((newRunningEventsStatus.update "db.sub.ev" true true).removeSchemaEvents
        "db").getStatus "db.sub.ev" = (true, true) ∧
    enabledEventsList.removeSchemaEvents [sampleEvent "db.sub" "ev" 5] "db"
      = some [sampleEvent "db.sub" "ev" 5] := by
  refine ⟨by decide, by decide, by decide, by decide⟩
